import Mathlib

/-!
# Verification of the Jarvis agent / patch engine

A shallow embedding of the core operations of the Jarvis repository:

* `src/jarvis/jarvis_coder/patch_handler.py` — `Patch`, `PatchHandler._extract_patches`,
  `PatchHandler.apply_file_patch`, `PatchHandler._confirm_and_apply_changes`,
  `PatchHandler.retry_comfirm`, `PatchHandler.apply_patch`,
  `PatchHandler.handle_patch_application`;
* `src/jarvis/jarvis_code_agent/patch.py` — `_parse_patch`, `handle_commit_workflow`,
  `revert_change`;
* `src/jarvis/agent.py` — `Agent.extract_tool_calls`, `Agent._call_model`,
  `Agent._summarize_and_clear_history`;
* `src/jarvis/models/oyi.py` — the platform conversation state (`chat`, `reset`,
  `delete_chat`).

Text is modelled as `List Char`.  The git working tree is modelled explicitly
(per file: HEAD content, index content, working-tree content), with the
observable behaviour of the git commands the code shells out to
(`git add`, `git rm`, `git reset <path>`, `git checkout -- <path>`,
`git reset --hard`, `git clean -fd`) spelled out in the corresponding
definitions, including their behaviour on untracked paths (those commands
fail on untracked paths and the python code ignores their exit status).
Python error paths are explicit: `apply_file_patch` returns `none` for the
`FileNotFoundError` that `os.makedirs("", exist_ok=True)` raises when the
target path has no directory component, and the session functions' `RunRes`
distinguishes a normal return from an uncaught exception propagating out.
-/

namespace Jarvis

/-- Python's whitespace class (`str.strip`, regex `\s`) restricted to the
characters that can occur in the texts we model. -/
def pyIsSpace (c : Char) : Bool :=
  c = ' ' || c = '\t' || c = '\n' || c = '\r' || c = '\x0b' || c = '\x0c'

/-- `startsWithL pat s` is true when `pat` is a prefix of `s`. -/
def startsWithL : List Char → List Char → Bool
  | [], _ => true
  | _ :: _, [] => false
  | p :: ps, c :: cs => p = c && startsWithL ps cs

/-- First index at which `pat` occurs as a contiguous sublist of `s`
(Python `str.find`, for a non-empty needle; returns `none` instead of `-1`). -/
def findSub (pat : List Char) : List Char → Option Nat
  | [] => if startsWithL pat [] then some 0 else none
  | c :: cs =>
    if startsWithL pat (c :: cs) then some 0
    else (findSub pat cs).map (· + 1)

/-- `containsSub s pat`: `pat` occurs somewhere in `s` (Python `pat in s`). -/
def containsSub (s pat : List Char) : Bool :=
  (findSub pat s).isSome

/-- Python `s.replace(old, new, 1)`: replace the first occurrence of `old`
(if any) by `new`. -/
def pyReplaceOnce (s old new : List Char) : List Char :=
  match findSub old s with
  | none => s
  | some i => s.take i ++ new ++ s.drop (i + old.length)

/-- Strip python-whitespace from the front of a character list. -/
def trimLeft (s : List Char) : List Char := s.dropWhile pyIsSpace

/-- Python `str.strip()`: whitespace removed from both ends. -/
def trimWs (s : List Char) : List Char :=
  ((trimLeft s).reverse.dropWhile pyIsSpace).reverse

/-- Lower-case a character list (Python `str.lower` on ASCII input). -/
def toLowerL (s : List Char) : List Char := s.map Char.toLower

/-! ## The git model

`patch_handler.py` and `patch.py` drive git by shelling out and ignoring the
exit status.  A single file's git-visible state is the triple of its content at
`HEAD`, in the index, and in the working tree (`none` = the file is absent
there). -/

/-- Git state of one file: content at HEAD, in the index and in the working
tree (`none` = absent). -/
structure FileGit where
  head : Option (List Char)
  index : Option (List Char)
  working : Option (List Char)
  deriving Repr, DecidableEq

/-- `git add <file>`: stage the working-tree content. -/
def gitAdd (s : FileGit) : FileGit := { s with index := s.working }

/-- `git reset <file>`: reset the file's index entry to its HEAD state. -/
def gitResetFile (s : FileGit) : FileGit := { s with index := s.head }

/-- `git checkout -- <file>`: restore the working-tree file from the index.
When the file has no index entry git fails with `pathspec did not match` and
the working tree is untouched (the caller ignores the exit status). -/
def gitCheckoutFile (s : FileGit) : FileGit :=
  match s.index with
  | some c => { s with working := some c }
  | none => s

/-- `git rm <file>`: remove the file from the index and the working tree.
Git refuses (and the caller ignores the failure) when the file is untracked,
when its staged content differs from HEAD, or when the working-tree content
differs from the index. -/
def gitRmFile (s : FileGit) : FileGit :=
  match s.index with
  | none => s
  | some c =>
    if s.head = some c && (s.working = some c || s.working = none) then
      { s with index := none, working := none }
    else s

/-! ## `PatchHandler` (src/jarvis/jarvis_coder/patch_handler.py) -/

/-- A patch as parsed by `PatchHandler._extract_patches`:
`Patch(old_code, new_code)`. -/
structure Patch where
  old_code : List Char
  new_code : List Char
  deriving Repr, DecidableEq

/-- The loop body of `PatchHandler.apply_file_patch` (lines 55–79): iterate
over the patch list, threading the `file_content` variable read once at entry.
* both fields empty → `file_content = ""` and `git rm` (delete shape);
* `old_code` empty → overwrite the file with `new_code`, `git add`;
* otherwise (anchored shape) → if `old_code` is not found in the current
  `file_content`, `git reset` + `git checkout --` the file and return `False`;
  else replace the first occurrence, write the file, `git add`. -/
def applyPatchesLoop : FileGit → List Char → List Patch → Bool × FileGit
  | s, _, [] => (true, s)
  | s, content, p :: rest =>
    if p.old_code = [] && p.new_code = [] then
      applyPatchesLoop (gitRmFile s) [] rest
    else if p.old_code = [] then
      applyPatchesLoop (gitAdd { s with working := some p.new_code }) p.new_code rest
    else
      match findSub p.old_code content with
      | none => (false, gitCheckoutFile (gitResetFile s))
      | some i =>
        let c2 := content.take i ++ p.new_code ++ content.drop (i + p.old_code.length)
        applyPatchesLoop (gitAdd { s with working := some c2 }) c2 rest

/-- `PatchHandler.apply_file_patch` (lines 48–79): when the file does not
exist, run `os.makedirs(os.path.dirname(file_path), exist_ok=True)` and create
an empty file.  `os.path.dirname` is empty exactly when the path contains no
`/`, and `os.makedirs("", exist_ok=True)` raises `FileNotFoundError`, an
exception nothing in the call chain catches — modelled as `none`.  For a path
with a directory component the directories and the empty file are created
(directory creation is otherwise unobservable in this model).  Then the
content is read once and the patch loop runs. -/
def apply_file_patch (file_path : List Char) (s : FileGit) (patches : List Patch) :
    Option (Bool × FileGit) :=
  match s.working with
  | some c => some (applyPatchesLoop s c patches)
  | none =>
    if containsSub file_path "/".toList then
      some (applyPatchesLoop { s with working := some [] } [] patches)
    else none

/-! ## `PatchHandler._extract_patches` (patch_handler.py lines 17–31)

The source matches the regex
`<PATCH>\n>>>>>> SEARCH\n(.*?)\n?(={5,})\n(.*?)\n?<<<<<< REPLACE\n</PATCH>`
with `re.DOTALL` and `re.finditer`.  The scanner below is the unfolding of
that lazy pattern: the literal header; then the shortest group 1 such that an
optional newline, five-or-more `=`, and a newline follow; then the shortest
group 3 such that an optional newline and the literal trailer follow; matches
are non-overlapping and scanning resumes after each match. -/

/-- The literal header `<PATCH>\n>>>>>> SEARCH\n`. -/
def srHeader : List Char := "<PATCH>\n>>>>>> SEARCH\n".toList

/-- The literal trailer `<<<<<< REPLACE\n</PATCH>`. -/
def srTrailer : List Char := "<<<<<< REPLACE\n</PATCH>".toList

/-- Length of the leading run of `=` characters. -/
def eqRunLen : List Char → Nat
  | '=' :: rest => eqRunLen rest + 1
  | _ => 0

/-- Does `\n?(={5,})\n` match at the head of `s`?  Returns the number of
characters consumed.  The optional newline is consumed when present (the
following `={5,}` can never match a newline, so no backtracking arises). -/
def sepLen (s : List Char) : Option Nat :=
  match s with
  | '\n' :: rest =>
    let k := eqRunLen rest
    if 5 ≤ k && startsWithL ['\n'] (rest.drop k) then some (k + 2) else none
  | _ =>
    let k := eqRunLen s
    if 5 ≤ k && startsWithL ['\n'] (s.drop k) then some (k + 1) else none

/-- Earliest position (and consumed length) at which `\n?(={5,})\n` matches —
the end of the lazy group 1. -/
def scanSepPos : List Char → Option (Nat × Nat)
  | [] => none
  | c :: cs =>
    match sepLen (c :: cs) with
    | some l => some (0, l)
    | none => (scanSepPos cs).map (fun el => (el.1 + 1, el.2))

/-- Remove one trailing newline, if present (the `\n?` before a literal). -/
def stripTrailNl (s : List Char) : List Char :=
  match s.getLast? with
  | some '\n' => s.dropLast
  | _ => s

/-- Remove one leading newline, if present (the `\n?` after a literal). -/
def stripLeadNl (s : List Char) : List Char :=
  match s with
  | '\n' :: rest => rest
  | _ => s

/-- One pass of `re.finditer` for the search/replace pattern, with fuel for
the advance-and-retry of the regex engine. -/
def extractPatchesAux : Nat → List Char → List Patch
  | 0, _ => []
  | fuel + 1, s =>
    match findSub srHeader s with
    | none => []
    | some q =>
      let rest := (s.drop q).drop srHeader.length
      match scanSepPos rest with
      | none => extractPatchesAux fuel (s.drop (q + 1))
      | some el =>
        let g1 := rest.take el.1
        let rest2 := rest.drop (el.1 + el.2)
        match findSub srTrailer rest2 with
        | none => extractPatchesAux fuel (s.drop (q + 1))
        | some p1 =>
          let g3 := stripTrailNl (rest2.take p1)
          ⟨g1, g3⟩ :: extractPatchesAux fuel (rest2.drop (p1 + srTrailer.length))

/-- `PatchHandler._extract_patches`: all search/replace patch blocks of a
model response, in order of appearance. -/
def extract_patches (response : List Char) : List Patch :=
  extractPatchesAux (response.length + 1) response

/-! ## Association lists (python `dict` with insertion order) -/

/-- First value stored under key `k` (python `d[k]` once keys are unique). -/
def lookupA (m : List (List Char × List Char)) (k : List Char) : Option (List Char) :=
  match m with
  | [] => none
  | kv :: rest => if kv.1 = k then some kv.2 else lookupA rest k

/-- Python `d[k] = v`: overwrite in place when the key exists, else append. -/
def dictInsert (m : List (List Char × List Char)) (k v : List Char) :
    List (List Char × List Char) :=
  match m with
  | [] => [(k, v)]
  | kv :: rest => if kv.1 = k then (k, v) :: rest else kv :: dictInsert rest k v

/-! ## `_parse_patch` (src/jarvis/jarvis_code_agent/patch.py lines 54–66)

The source finds all blocks of `re.findall(r'<PATCH>\n?(.*?)\n?</PATCH>',
patch_str, re.DOTALL)` — i.e. the text between each `<PATCH>` and the first
following `</PATCH>`, with at most one newline stripped at either end — then
requires the block's first line to match `^File:\s*(.+)$` and stores the block
in a dict keyed by the stripped file path (`result[filepath] = patch`). -/

/-- The literal `<PATCH>`. -/
def openTag : List Char := "<PATCH>".toList

/-- The literal `</PATCH>`. -/
def closeTag : List Char := "</PATCH>".toList

/-- All bodies between `<PATCH>`/`</PATCH>` pairs, scanning left to right,
non-overlapping, one optional newline stripped at each end. -/
def findBlocksAux : Nat → List Char → List (List Char)
  | 0, _ => []
  | fuel + 1, s =>
    match findSub openTag s with
    | none => []
    | some q =>
      let rest := (s.drop q).drop openTag.length
      match findSub closeTag rest with
      | none => []
      | some p =>
        stripLeadNl (stripTrailNl (rest.take p)) ::
          findBlocksAux fuel (rest.drop (p + closeTag.length))

/-- All `<PATCH>` block bodies of a response. -/
def findBlocks (s : List Char) : List (List Char) :=
  findBlocksAux (s.length + 1) s

/-- Python line terminators relevant to `str.splitlines`. -/
def isLineTerm (c : Char) : Bool := c = '\n' || c = '\r'

/-- `patch.splitlines()[0]` for a non-empty `patch`. -/
def firstLineOf (s : List Char) : List Char := s.takeWhile (fun c => !isLineTerm c)

/-- Fold of `_parse_patch`'s loop over the matched blocks: an empty block makes
`patch.splitlines()[0]` raise `IndexError` (modelled as `none`); a first line
not matching `^File:\s*(.+)$` is skipped with a warning; otherwise
`result[filepath] = patch` with the stripped path. -/
def parseBlocksAux (acc : List (List Char × List Char)) :
    List (List Char) → Option (List (List Char × List Char))
  | [] => some acc
  | b :: rest =>
    if b = [] then none
    else
      let fl := firstLineOf b
      if startsWithL "File:".toList fl && fl.drop 5 ≠ [] then
        parseBlocksAux (dictInsert acc (trimWs (fl.drop 5)) b) rest
      else
        parseBlocksAux acc rest

/-- `_parse_patch`: map from declared file path to its (last) patch block.
`none` models the `IndexError` escaping on an empty block. -/
def parse_patch (s : List Char) : Option (List (List Char × List Char)) :=
  parseBlocksAux [] (findBlocks s)

/-! ## The multi-file repository model -/

/-- Update an association list at a key: `none` removes the entry, `some v`
overwrites in place or appends. -/
def setA (m : List (List Char × List Char)) (k : List Char) :
    Option (List Char) → List (List Char × List Char)
  | none => m.filter (fun kv => kv.1 ≠ k)
  | some v => dictInsert m k v

/-- Whole-repository git state: per-path content at HEAD, in the index, and in
the working tree. -/
structure RepoGit where
  head : List (List Char × List Char)
  index : List (List Char × List Char)
  working : List (List Char × List Char)
  deriving Repr, DecidableEq

/-- The single-file view of one path of a repository. -/
def fileView (r : RepoGit) (p : List Char) : FileGit :=
  ⟨lookupA r.head p, lookupA r.index p, lookupA r.working p⟩

/-- Write a single-file state back into the repository at path `p`. -/
def putFile (r : RepoGit) (p : List Char) (f : FileGit) : RepoGit :=
  { head := setA r.head p f.head
    index := setA r.index p f.index
    working := setA r.working p f.working }

/-- `PatchHandler.apply_file_patch` acting on one path of a repository
(`none` = the `FileNotFoundError` escaping). -/
def apply_file_patch_repo (r : RepoGit) (p : List Char) (ps : List Patch) :
    Option (Bool × RepoGit) :=
  match apply_file_patch p (fileView r p) ps with
  | none => none
  | some bf => some (bf.1, putFile r p bf.2)

/-- `git reset <p>` followed by `git checkout -- <p>` on a repository — the
rollback pair the patch handler shells out on failure. -/
def resetCheckoutFile (r : RepoGit) (p : List Char) : RepoGit :=
  let r1 : RepoGit := { r with index := setA r.index p (lookupA r.head p) }
  match lookupA r1.index p with
  | some c => { r1 with working := setA r1.working p (some c) }
  | none => r1

/-- `git reset --hard` (patch_handler.py lines 184 and 191): the index becomes
HEAD and every tracked file's working copy is restored from HEAD; files that
are neither in the index nor in HEAD are untracked and are left alone. -/
def resetHardRepo (r : RepoGit) : RepoGit :=
  { head := r.head
    index := r.head
    working := r.head ++ r.working.filter
      (fun kv => (lookupA r.index kv.1).isNone && (lookupA r.head kv.1).isNone) }

/-- `revert_change` (src/jarvis/jarvis_code_agent/patch.py lines 133–136):
`git reset --hard HEAD` followed by `git clean -fd`, which also deletes the
untracked files, leaving the working tree identical to HEAD. -/
def revert_change (r : RepoGit) : RepoGit :=
  { head := r.head, index := r.head, working := r.head }

/-- `handle_commit_workflow` (src/jarvis/jarvis_code_agent/patch.py lines
154–165).  `confirmBefore` is `is_confirm_before_apply_patch()` and `accept`
the `user_confirm` answer; the commit itself is `GitCommitTool().execute({})`,
an external collaborator passed in as `commit`. -/
def handle_commit_workflow (confirmBefore accept : Bool)
    (commit : RepoGit → Bool × RepoGit) (r : RepoGit) : Bool × RepoGit :=
  if confirmBefore && !accept then (false, revert_change r)
  else commit r

/-! ## The interactive patch session (patch_handler.py lines 34–45, 82–194)

User keyboard input and model responses are external inputs; they are passed
in as streams `inputs`/`responses ： Nat → List Char` consumed in program
order, with explicit cursors. -/

/-- `PatchHandler._confirm_and_apply_changes` (lines 34–45): show the diff,
read `input(...)` (empty answer defaults to `"y"`, otherwise lower-cased);
on anything else `git reset` + `git checkout --` the file and report `False`.
Returns (accepted, repository, next input cursor). -/
def confirm_and_apply_changes (inputs : Nat → List Char) (ii : Nat)
    (r : RepoGit) (p : List Char) : Bool × RepoGit × Nat :=
  let raw := inputs ii
  let c := if raw = [] then "y".toList else toLowerL raw
  if c = "y".toList then (true, r, ii + 1)
  else (false, resetCheckoutFile r p, ii + 1)

/-- Outcome of `retry_comfirm` (lines 82–89). -/
inductive RetryAct where
  | skip
  | brk
  | cont
  deriving Repr, DecidableEq

/-- `PatchHandler.retry_comfirm`: `input()` defaulting to `"1"`; `"2"` skips
the file, `"3"` stops everything, anything else reads one more line of
feedback (`get_multiline_input`) and retries. -/
def retry_comfirm (inputs : Nat → List Char) (ii : Nat) : RetryAct × Nat :=
  let raw := inputs ii
  let choice := if raw = [] then "1".toList else raw
  if choice = "2".toList then (.skip, ii + 1)
  else if choice = "3".toList then (.brk, ii + 1)
  else (.cont, ii + 2)

/-- Result of the per-file `while True` loop inside
`PatchHandler.apply_patch`. -/
inductive FileLoopRes where
  | finished
  | aborted
  deriving Repr, DecidableEq

/-- Outcome of a run of (part of) the interactive session: a normal return,
an uncaught python exception propagating out (nothing in `apply_patch` or
`handle_patch_application` catches), or the model's iteration bound running
out (no verdict). -/
inductive RunRes (α : Type) where
  | ok (a : α)
  | exn
  | fuelOut
  deriving Repr, DecidableEq

/-- The inner `while True` loop of `PatchHandler.apply_patch` (lines 95–160)
for one file: generate patches from a model response, extract, apply and
confirm; on any failure `git reset` + `git checkout --` the file and ask the
user whether to retry, skip the file, or stop the whole run.  A
`FileNotFoundError` out of `apply_file_patch` propagates (`.exn`); `fuel`
bounds the number of iterations. -/
def apply_patch_file (responses inputs : Nat → List Char) (p : List Char) :
    Nat → RepoGit → Nat → Nat → RunRes (FileLoopRes × RepoGit × Nat × Nat)
  | 0, _, _, _ => .fuelOut
  | fuel + 1, r, ri, ii =>
    let ps := extract_patches (responses ri)
    let step : Option (Bool × RepoGit × Nat) :=
      if ps = [] then some (false, r, ii)
      else
        match apply_file_patch_repo r p ps with
        | none => none
        | some a =>
          if a.1 then some (confirm_and_apply_changes inputs ii a.2 p)
          else some (false, a.2, ii)
    match step with
    | none => .exn
    | some st =>
      if st.1 then .ok (.finished, st.2.1, ri + 1, st.2.2)
      else
        let r3 := resetCheckoutFile st.2.1 p
        let t := retry_comfirm inputs st.2.2
        match t.1 with
        | .brk => .ok (.aborted, r3, ri + 1, t.2)
        | .skip => .ok (.finished, r3, ri + 1, t.2)
        | .cont => apply_patch_file responses inputs p fuel r3 (ri + 1) t.2

/-- `PatchHandler.apply_patch` (lines 91–162): the outer loop over the files
of the structured plan (only the file names influence the state); an
exception from a file's loop propagates. -/
def apply_patch_main (responses inputs : Nat → List Char) (fuel : Nat) :
    List (List Char) → RepoGit → Nat → Nat → RunRes (Bool × RepoGit × Nat × Nat)
  | [], r, ri, ii => .ok (true, r, ri, ii)
  | p :: rest, r, ri, ii =>
    match apply_patch_file responses inputs p fuel r ri ii with
    | .fuelOut => .fuelOut
    | .exn => .exn
    | .ok (.aborted, r1, ri1, ii1) => .ok (false, r1, ri1, ii1)
    | .ok (.finished, r1, ri1, ii1) =>
      apply_patch_main responses inputs fuel rest r1 ri1 ii1

/-- `PatchHandler.handle_patch_application` (lines 166–194): run
`apply_patch` (an exception from it propagates — there is no try/except); on
failure `git reset --hard` and report `False`; on success ask
`Keep these changes? (y/n) [y]`, and on anything but `y` run
`git reset --hard` and report `False`. -/
def handle_patch_application (responses inputs : Nat → List Char) (fuel : Nat)
    (files : List (List Char)) (r : RepoGit) : RunRes (Bool × RepoGit) :=
  match apply_patch_main responses inputs fuel files r 0 0 with
  | .fuelOut => .fuelOut
  | .exn => .exn
  | .ok (ok, r1, _, ii1) =>
    if ok then
      let raw := inputs ii1
      let c := if raw = [] then "y".toList else toLowerL raw
      if c ≠ "y".toList then .ok (false, resetHardRepo r1)
      else .ok (true, r1)
    else .ok (false, resetHardRepo r1)

/-! ## `Agent.extract_tool_calls` (src/jarvis/agent.py lines 65–107)

The function splits the response on `'\n'`, walks the lines, and on the first
`<END_TOOL_CALL>` line closing a non-empty `<START_TOOL_CALL>` block parses
the collected lines as YAML and returns the single call, raising on a parse
error or missing `name`/`arguments` keys.  The YAML parser is an external
collaborator; it is passed in as `parse`, returning either an error message or
the parsed mapping (an association list, in which the code looks up the keys
`name` and `arguments`). -/

/-- Python `content.split('\n')`. -/
def splitOnNl : List Char → List (List Char)
  | [] => [[]]
  | c :: rest =>
    if c = '\n' then [] :: splitOnNl rest
    else
      match splitOnNl rest with
      | l :: ls => (c :: l) :: ls
      | [] => [[c]]

/-- `'\n'.join`, the inverse of `splitOnNl` on newline-free lines. -/
def joinNl : List (List Char) → List Char
  | [] => []
  | [l] => l
  | l :: ls => l ++ '\n' :: joinNl ls

/-- The sentinel `<START_TOOL_CALL>`. -/
def startMarker : List Char := "<START_TOOL_CALL>".toList

/-- The sentinel `<END_TOOL_CALL>`. -/
def endMarker : List Char := "<END_TOOL_CALL>".toList

/-- The line loop of `extract_tool_calls`, carrying `tool_call_lines` and
`in_tool_call` exactly as the source does (the collected lines are never
reset).  `.error` models an exception escaping; `.ok` is the returned list of
`{name, arguments}` dicts. -/
def extractLoop (parse : List (List Char) → Except (List Char) (List (List Char × List Char))) :
    List (List Char) → List (List Char) → Bool →
    Except (List Char) (List (List Char × List Char))
  | [], _, _ => .ok []
  | line :: rest, acc, inCall =>
    if containsSub line startMarker then extractLoop parse rest acc true
    else if containsSub line endMarker then
      if inCall && acc ≠ [] then
        match parse acc with
        | .error e => .error e
        | .ok m =>
          match lookupA m "name".toList, lookupA m "arguments".toList with
          | some n, some a => .ok [(n, a)]
          | _, _ => .error "工具调用缺少必要字段".toList
      else extractLoop parse rest acc false
    else if inCall then extractLoop parse rest (acc ++ [line]) inCall
    else extractLoop parse rest acc inCall

/-- `Agent.extract_tool_calls`: at most one tool call extracted from a raw
response, or an error. -/
def extract_tool_calls
    (parse : List (List Char) → Except (List Char) (List (List Char × List Char)))
    (content : List Char) : Except (List Char) (List (List Char × List Char)) :=
  extractLoop parse (splitOnNl content) [] false

/-! ## `Agent._call_model` (src/jarvis/agent.py lines 109–122)

`while_success(lambda: self.model.chat(message), sleep_time=5)` retries
exceptions internally and eventually yields the transport's string result;
successive results are modelled as the stream `resp`.  A falsy (empty) result
makes the loop sleep `sleep_time` seconds, double it and cap it at 30. -/

/-- `sleep_time *= 2; if sleep_time > 30: sleep_time = 30`. -/
def capDouble (st : Nat) : Nat :=
  if st * 2 > 30 then 30 else st * 2

/-- The retry loop of `_call_model`: returns the list of sleeps performed and
the first truthy response, with fuel bounding the number of attempts
(`none` = still retrying after `fuel` attempts; the loop itself has no exit
other than a truthy response). -/
def callModelLoop (resp : Nat → List Char) :
    Nat → Nat → Nat → List Nat × Option (List Char)
  | 0, _, _ => ([], none)
  | fuel + 1, k, st =>
    if resp k ≠ [] then ([], some (resp k))
    else
      let next := callModelLoop resp fuel (k + 1) (capDouble st)
      (st :: next.1, next.2)

/-- `Agent._call_model`: start with `sleep_time = 5`. -/
def call_model (resp : Nat → List Char) (fuel : Nat) : List Nat × Option (List Char) :=
  callModelLoop resp fuel 0 5

/-- The sleep performed before the n-th retry (counting from 0). -/
def delaySeq : Nat → Nat
  | 0 => 5
  | n + 1 => capDouble (delaySeq n)

/-! ## The platform conversation state (src/jarvis/models/oyi.py)

The conversation lives on the platform object: `messages` (the turn list),
`system_message`, whether a server-side conversation exists, and the
`first_chat` flag that makes the first `chat` call prepend the system
message. -/

/-- Platform-side conversation state; a message is `(isUser, content)`. -/
structure OyiState where
  messages : List (Bool × List Char)
  system_message : List Char
  conversationOpen : Bool
  first_chat : Bool
  deriving Repr, DecidableEq

/-- `OyiModel.chat` (oyi.py lines 100–188) with a successful transport whose
answer is `reply`: create the conversation if needed, on the first chat
prepend `system_message + "\n"`, append the user message and then the
assistant reply to `messages`, and return the reply. -/
def oyiChat (reply : List Char) (s : OyiState) (message : List Char) :
    OyiState × List Char :=
  let m := if s.first_chat then s.system_message ++ '\n' :: message else message
  ({ s with
      messages := s.messages ++ [(true, m), (false, reply)]
      first_chat := false
      conversationOpen := true }, reply)

/-- `OyiModel.delete_chat` (oyi.py lines 202–242): nothing to do without a
conversation; on a successful server call run `reset()`, which clears
`messages` and `first_chat` but keeps `system_message`.  `httpOk` is the
external server's verdict. -/
def oyiDeleteChat (httpOk : Bool) (s : OyiState) : OyiState × Bool :=
  if !s.conversationOpen then (s, true)
  else if httpOk then
    ({ messages := []
       system_message := s.system_message
       conversationOpen := false
       first_chat := true }, true)
  else (s, false)

/-- The Agent fields touched by summarization (agent.py): the platform state,
the pending `self.prompt`, and `self.conversation_turns`. -/
structure AgentSt where
  model : OyiState
  prompt : List Char
  conversation_turns : Nat
  deriving Repr, DecidableEq

/-- The fixed summarization request sent to the model (agent.py lines
210–218). -/
def summaryRequest : List Char :=
  "请总结之前对话中的关键信息，包括：\n1. 当前任务目标\n2. 已经确认的关键信息\n3. 已经尝试过的方案\n4. 当前进展\n5. 待解决的问题\n\n请用简洁的要点形式描述，突出重要信息。不要包含对话细节。\n".toList

/-- Prefix of the new pending prompt built around the summary (agent.py lines
227–232). -/
def summaryWrapA : List Char :=
  "以下是之前对话的关键信息总结：\n\n".toList

/-- Suffix of the new pending prompt built around the summary. -/
def summaryWrapB : List Char :=
  "\n\n请基于以上信息继续完成任务。\n".toList

/-- `Agent._summarize_and_clear_history` (agent.py lines 196–238) on the
success path: ask the model for a summary, `delete_chat()` (whose boolean
result is ignored), replace the pending prompt with the wrapped summary and
reset `conversation_turns` to 0. -/
def summarize_and_clear_history (reply : List Char) (deleteOk : Bool)
    (a : AgentSt) : AgentSt :=
  let c := oyiChat reply a.model summaryRequest
  let d := oyiDeleteChat deleteOk c.1
  { model := d.1
    prompt := summaryWrapA ++ c.2 ++ summaryWrapB
    conversation_turns := 0 }

/-! ## Canonical patch blocks

Helper constructors used to state the multi-block parsing theorems: a
well-formed context block (`_parse_patch` wire format) and a well-formed
search/replace block (`_extract_patches` wire format), together with the
syntactic side conditions under which the regex scanning is unambiguous. -/

/-- The body text of a context patch block: the `File:` line followed by the
snippet. -/
def bodyA (p inner : List Char) : List Char :=
  "File: ".toList ++ p ++ '\n' :: inner

/-- A full `<PATCH> … </PATCH>` context block for file `p` with snippet
`inner`. -/
def mkBlockA (p inner : List Char) : List Char :=
  openTag ++ '\n' :: bodyA p inner ++ '\n' :: closeTag

/-- A response consisting of context blocks back to back. -/
def joinBlocksA (bs : List (List Char × List Char)) : List Char :=
  (bs.map (fun pi => mkBlockA pi.1 pi.2)).flatten

/-- Side conditions making a context block scan unambiguously: no `<` in path
or snippet (so the markers cannot be imitated), and no line break in the
path. -/
def goodA (pi : List Char × List Char) : Prop :=
  (∀ a ∈ pi.1, a ≠ '<' ∧ a ≠ '\n' ∧ a ≠ '\r') ∧ (∀ a ∈ pi.2, a ≠ '<')

/-- A full search/replace block for one patch, with a six-`=` separator
line. -/
def mkSRBlock (pc : Patch) : List Char :=
  srHeader ++ pc.old_code ++ '\n' :: "======".toList ++ '\n' ::
    pc.new_code ++ '\n' :: srTrailer

/-- A response consisting of search/replace blocks back to back. -/
def joinSR (ps : List Patch) : List Char := (ps.map mkSRBlock).flatten

/-- Side conditions making a search/replace block scan unambiguously: no `=`
or `<` in `old_code`, no `<` in `new_code`. -/
def goodSR (pc : Patch) : Prop :=
  (∀ a ∈ pc.old_code, a ≠ '=' ∧ a ≠ '<') ∧ (∀ a ∈ pc.new_code, a ≠ '<')

/-- `capDouble` iterated `n` times on a starting sleep (used to describe the
`_call_model` sleep trace). -/
def iterCapD : Nat → Nat → Nat
  | 0, st => st
  | n + 1, st => iterCapD n (capDouble st)

/-! ## Lemmas about substring search -/

theorem findSub_min (pat : List Char) :
    ∀ (s : List Char) (i : Nat), findSub pat s = some i →
      ∀ j, j < i → startsWithL pat (s.drop j) = false := by
  intro s
  induction s with
  | nil =>
    intro i h j hj
    simp only [findSub] at h
    split at h
    · simp at h; omega
    · simp at h
  | cons c cs ih =>
    intro i h j hj
    simp only [findSub] at h
    split at h
    · simp at h; omega
    · rename_i hpre
      cases hfind : findSub pat cs with
      | none => rw [hfind] at h; simp at h
      | some i2 =>
        rw [hfind] at h
        simp at h
        cases j with
        | zero =>
          simpa using hpre
        | succ j2 =>
          simp only [List.drop_succ_cons]
          exact ih i2 hfind j2 (by omega)

/-- C4: an anchored patch (both fields non-empty) applied to a file whose
content contains `old_code` replaces exactly the first literal occurrence of
`old_code` by `new_code`, exactly once, whatever the file's path: the result
is the content up to the first match, then `new_code`, then the rest after
the matched span, the file is written and staged, no exception occurs, and no
earlier position matches `old_code`. -/
theorem apply_anchored_first_occurrence (file_path : List Char) (s : FileGit)
    (c old new : List Char)
    (i : Nat) (hw : s.working = some c) (hold : old ≠ []) (_hnew : new ≠ [])
    (hfind : findSub old c = some i) :
    apply_file_patch file_path s [⟨old, new⟩] =
      some (true,
        gitAdd { s with working := some (c.take i ++ new ++ c.drop (i + old.length)) }) ∧
    ∀ j, j < i → startsWithL old (c.drop j) = false := by
  constructor
  · simp only [apply_file_patch, hw]
    rw [applyPatchesLoop]
    simp only [hold, hfind]
    rfl
  · exact findSub_min old c i hfind

/-- Witness for C4: the spec's round-trip example — patching
`"a\nb\nc\n"` with `Patch{old_code="b\n", new_code="B\n"}` yields
`"a\nB\nc\n"` (written, staged, reported as success), and no position before
index 2 matches. -/
theorem apply_anchored_first_occurrence_witness :
    apply_file_patch "a.txt".toList ⟨none, none, some "a\nb\nc\n".toList⟩
        [⟨"b\n".toList, "B\n".toList⟩] =
      some (true, ⟨none, some "a\nB\nc\n".toList, some "a\nB\nc\n".toList⟩) ∧
    ∀ j, j < 2 → startsWithL "b\n".toList ("a\nb\nc\n".toList.drop j) = false := by
  have h := apply_anchored_first_occurrence "a.txt".toList
    ⟨none, none, some "a\nb\nc\n".toList⟩
    "a\nb\nc\n".toList "b\n".toList "B\n".toList 2 rfl (by decide) (by decide) (by decide)
  exact ⟨h.1, h.2⟩

/-- C1 counterexample: for a file that is untracked at the baseline the
rollback step of a failed anchored patch does nothing: `git reset` and
`git checkout --` both fail for an untracked path (and their exit status is
ignored), so the working-tree file keeps the partially patched content `"X"`
written by the preceding whole-replace patch instead of being rolled back to
its pre-session content `"old"` — the file is not rolled back. -/
theorem apply_anchored_missing_untracked_not_rolled_back :
    apply_file_patch "a.txt".toList ⟨none, none, some "old".toList⟩
        [⟨[], "X".toList⟩, ⟨"Z".toList, "W".toList⟩] =
      some (false, ⟨none, none, some "X".toList⟩) ∧
    some "X".toList ≠ some "old".toList :=
  ⟨rfl, by decide⟩

/-- C1 (amended): an anchored patch whose `old_code` does not occur in the
current content makes the whole patch-list application fail hard for that
file — the loop stops at that patch (later patches are not applied), reports
failure for this file only, and runs `git reset` + `git checkout --` on it;
when the file is tracked at the baseline this restores the baseline content
in the working tree (for a baseline-untracked file both git commands fail and
the partial content remains).  In particular re-applying an already-applied
anchored patch, whose `old_code` is gone, fails rather than silently
no-opping. -/
theorem apply_anchored_missing_fails_hard (old new : List Char)
    (hold : old ≠ []) (_hnew : new ≠ []) (s : FileGit) (content : List Char)
    (post : List Patch) (hnf : findSub old content = none) :
    applyPatchesLoop s content (⟨old, new⟩ :: post) =
      (false, gitCheckoutFile (gitResetFile s)) ∧
    (∀ b, s.head = some b → (gitCheckoutFile (gitResetFile s)).working = some b) ∧
    (∀ (file_path : List Char) (s2 : FileGit), s2.working = some content →
      apply_file_patch file_path s2 [⟨old, new⟩] =
        some (false, gitCheckoutFile (gitResetFile s2))) := by
  refine ⟨?_, ?_, ?_⟩
  · rw [applyPatchesLoop]
    simp only [hold, hnf]
    rfl
  · intro b hb
    simp [gitResetFile, gitCheckoutFile, hb]
  · intro file_path s2 hw2
    simp only [apply_file_patch, hw2]
    rw [applyPatchesLoop]
    simp only [hold, hnf]
    rfl

/-- Witness for C1 (amended): a tracked file with baseline `"a\n"` patched to
`"A\n"`; re-applying `Patch{old_code="a\n", new_code="A\n"}` to the patched
content fails and the rollback restores the baseline. -/
theorem apply_anchored_missing_fails_hard_witness :
    applyPatchesLoop ⟨some "a\n".toList, some "A\n".toList, some "A\n".toList⟩
        "A\n".toList [⟨"a\n".toList, "A\n".toList⟩] =
      (false, ⟨some "a\n".toList, some "a\n".toList, some "a\n".toList⟩) ∧
    apply_file_patch "a.txt".toList
        ⟨some "a\n".toList, some "A\n".toList, some "A\n".toList⟩
        [⟨"a\n".toList, "A\n".toList⟩] =
      some (false, ⟨some "a\n".toList, some "a\n".toList, some "a\n".toList⟩) := by
  have h := apply_anchored_missing_fails_hard "a\n".toList "A\n".toList
    (by decide) (by decide) ⟨some "a\n".toList, some "A\n".toList, some "A\n".toList⟩
    "A\n".toList [] (by decide)
  exact ⟨h.1, h.2.2 "a.txt".toList _ rfl⟩

/-- C9 counterexample: a delete-shape patch on a non-existent file is NOT a
no-op success leaving the filesystem without the file.  For a path with no
directory component (`"f"`), `os.makedirs(os.path.dirname("f"))` is
`os.makedirs("")`, which raises `FileNotFoundError` — the call raises instead
of returning success.  For a path with a directory component (`"src/f"`),
the call returns success but first creates an empty file at the path, and the
delete branch's `git rm` fails on the untracked path (exit status ignored),
so the empty file remains in the working tree. -/
theorem delete_nonexistent_leaves_empty_file :
    apply_file_patch "f".toList ⟨none, none, none⟩ [⟨[], []⟩] = none ∧
    apply_file_patch "src/f".toList ⟨none, none, none⟩ [⟨[], []⟩] =
      some (true, ⟨none, none, some []⟩) ∧
    (some ([] : List Char) ≠ none) :=
  ⟨rfl, rfl, by decide⟩

/-- C9 (amended): a delete-shape patch (both fields empty) on a non-existent,
untracked file raises `FileNotFoundError` when the path has no directory
component (`os.makedirs("")`); when the path has a directory component it
does not raise and reports success, but the side effect is that an empty file
is created at the path and survives (the `git rm` fails for the untracked
file and its failure is ignored). -/
theorem delete_nonexistent_noop_success (file_path : List Char) (s : FileGit)
    (hw : s.working = none) (hi : s.index = none) :
    (containsSub file_path "/".toList = false →
      apply_file_patch file_path s [⟨[], []⟩] = none) ∧
    (containsSub file_path "/".toList = true →
      apply_file_patch file_path s [⟨[], []⟩] =
        some (true, { s with working := some [] })) := by
  constructor
  · intro hdir
    simp only [apply_file_patch, hw, hdir]
    rfl
  · intro hdir
    simp only [apply_file_patch, hw, hdir, if_true]
    rw [applyPatchesLoop]
    simp only [gitRmFile, hi]
    rfl

/-- Witness for C9 (amended): the raise at the bare path `"f"` and the
surviving empty file at `"src/f"`. -/
theorem delete_nonexistent_noop_success_witness :
    apply_file_patch "f".toList ⟨some "h".toList, none, none⟩ [⟨[], []⟩] = none ∧
    apply_file_patch "src/f".toList ⟨some "h".toList, none, none⟩ [⟨[], []⟩] =
      some (true, ⟨some "h".toList, none, some []⟩) :=
  ⟨(delete_nonexistent_noop_success "f".toList
      ⟨some "h".toList, none, none⟩ rfl rfl).1 (by decide),
   (delete_nonexistent_noop_success "src/f".toList
      ⟨some "h".toList, none, none⟩ rfl rfl).2 (by decide)⟩

/-- Helper for C10: the patch loop never removes the working-tree file except
through a delete-shape patch. -/
theorem applyPatchesLoop_working_isSome :
    ∀ (ps : List Patch) (s : FileGit) (content : List Char),
      (⟨[], []⟩ : Patch) ∉ ps → s.working.isSome →
      ((applyPatchesLoop s content ps).2.working).isSome := by
  intro ps
  induction ps with
  | nil => intro s content _ hs; simpa [applyPatchesLoop] using hs
  | cons p rest ih =>
    intro s content hmem hs
    have hmem1 : p ≠ ⟨[], []⟩ := by
      intro h; exact hmem (by simp [h])
    have hmem2 : (⟨[], []⟩ : Patch) ∉ rest := by
      intro h; exact hmem (List.mem_cons_of_mem _ h)
    rw [applyPatchesLoop]
    by_cases h1 : p.old_code = [] ∧ p.new_code = []
    · exact absurd (by cases p; simp_all) hmem1
    · have h1b : ¬(p.old_code = [] && p.new_code = []) = true := by
        simpa [Bool.and_eq_true] using h1
      rw [if_neg h1b]
      by_cases h2 : p.old_code = []
      · rw [if_pos (by simpa using h2)]
        exact ih _ _ hmem2 (by simp [gitAdd])
      · rw [if_neg (by simpa using h2)]
        cases hf : findSub p.old_code content with
        | none =>
          simp only [gitResetFile, gitCheckoutFile]
          cases hh : s.head with
          | none => simpa using hs
          | some b => simp
        | some i => exact ih _ _ hmem2 (by simp [gitAdd])

/-- C10 counterexample: for a target path with no directory component that
does not exist on disk, `apply_file_patch` does NOT create a parent directory
and an empty file — `os.makedirs(os.path.dirname("f"), exist_ok=True)` is
`os.makedirs("")`, which raises `FileNotFoundError` before anything is
created, so no application result (and no file) exists at all. -/
theorem apply_nonexistent_bare_path_raises :
    apply_file_patch "f".toList ⟨none, none, none⟩ [⟨[], "X".toList⟩] = none ∧
    (∀ r : Bool × FileGit, (none : Option (Bool × FileGit)) ≠ some r) :=
  ⟨rfl, fun _ h => Option.noConfusion h⟩

/-- C10 (amended): when the target path does not exist, `apply_file_patch`
raises `FileNotFoundError` if the path has no directory component
(`os.makedirs("")`); when the path has a directory component it first creates
the parent directories and an empty file there and only then runs the patch
loop, whatever the patch shapes are; an anchored patch is then matched
against the empty content and fails with the per-file rollback; and the
application of any patch list leaves a file at the path unless the list
contains a delete-shape patch. -/
theorem apply_nonexistent_creates_file (file_path : List Char) (s : FileGit)
    (ps : List Patch) (hw : s.working = none) :
    (containsSub file_path "/".toList = false →
      apply_file_patch file_path s ps = none) ∧
    (containsSub file_path "/".toList = true →
      apply_file_patch file_path s ps =
        some (applyPatchesLoop { s with working := some [] } [] ps) ∧
      (∀ old new, old ≠ [] →
        apply_file_patch file_path s [⟨old, new⟩] =
          some (false, gitCheckoutFile (gitResetFile { s with working := some [] }))) ∧
      ((⟨[], []⟩ : Patch) ∉ ps →
        ((applyPatchesLoop { s with working := some [] } [] ps).2.working).isSome)) := by
  constructor
  · intro hdir
    simp only [apply_file_patch, hw, hdir]
    rfl
  · intro hdir
    refine ⟨?_, ?_, ?_⟩
    · simp only [apply_file_patch, hw, hdir, if_true]
    · intro old new hold
      cases old with
      | nil => exact absurd rfl hold
      | cons c cs =>
        simp only [apply_file_patch, hw, hdir, if_true]
        rfl
    · intro hmem
      exact applyPatchesLoop_working_isSome ps _ _ hmem (by simp)

/-- Witness for C10 (amended): at the bare path `"f"` the call raises; at
`"src/f"` a whole-replace patch creates the file, an anchored patch fails,
and the created file persists. -/
theorem apply_nonexistent_creates_file_witness :
    apply_file_patch "f".toList ⟨none, none, none⟩ [⟨[], "X".toList⟩] = none ∧
    apply_file_patch "src/f".toList ⟨none, none, none⟩ [⟨[], "X".toList⟩] =
      some (applyPatchesLoop ⟨none, none, some []⟩ [] [⟨[], "X".toList⟩]) ∧
    apply_file_patch "src/f".toList ⟨none, none, none⟩ [⟨"Z".toList, "W".toList⟩] =
      some (false, gitCheckoutFile (gitResetFile ⟨none, none, some []⟩)) ∧
    ((applyPatchesLoop (⟨none, none, some []⟩ : FileGit) []
      [⟨[], "X".toList⟩]).2.working).isSome := by
  have h0 := apply_nonexistent_creates_file "f".toList ⟨none, none, none⟩
    [⟨[], "X".toList⟩] rfl
  have h := apply_nonexistent_creates_file "src/f".toList ⟨none, none, none⟩
    [⟨[], "X".toList⟩] rfl
  refine ⟨h0.1 (by decide), (h.2 (by decide)).1, ?_, (h.2 (by decide)).2.2 (by decide)⟩
  exact (h.2 (by decide)).2.1 "Z".toList "W".toList (by decide)

/-! ## Lemmas about line splitting and the extraction loop -/

theorem startsWithL_refl (s : List Char) : startsWithL s s = true := by
  induction s with
  | nil => rfl
  | cons c cs ih => simp [startsWithL, ih]

theorem containsSub_refl (s : List Char) : containsSub s s = true := by
  cases s with
  | nil => rfl
  | cons c cs => simp [containsSub, findSub, startsWithL_refl]

theorem splitOnNl_no_nl (l : List Char) (h : '\n' ∉ l) : splitOnNl l = [l] := by
  induction l with
  | nil => rfl
  | cons c cs ih =>
    have hc : c ≠ '\n' := fun hc => h (by simp [hc])
    have hcs : '\n' ∉ cs := fun hm => h (List.mem_cons_of_mem _ hm)
    simp [splitOnNl, hc, ih hcs]

theorem splitOnNl_append_nl (l t : List Char) (h : '\n' ∉ l) :
    splitOnNl (l ++ '\n' :: t) = l :: splitOnNl t := by
  induction l with
  | nil => simp [splitOnNl]
  | cons c cs ih =>
    have hc : c ≠ '\n' := fun hc => h (by simp [hc])
    have hcs : '\n' ∉ cs := fun hm => h (List.mem_cons_of_mem _ hm)
    simp [splitOnNl, hc, ih hcs]

theorem splitOnNl_joinNl (ls : List (List Char)) (hne : ls ≠ [])
    (h : ∀ l ∈ ls, '\n' ∉ l) : splitOnNl (joinNl ls) = ls := by
  induction ls with
  | nil => exact absurd rfl hne
  | cons l rest ih =>
    cases rest with
    | nil => exact splitOnNl_no_nl l (h l (by simp))
    | cons l2 rest2 =>
      rw [joinNl, splitOnNl_append_nl l _ (h l (by simp))]
      · rw [ih (List.cons_ne_nil _ _) (fun x hx => h x (List.mem_cons_of_mem _ hx))]
      · exact List.cons_ne_nil _ _

theorem extractLoop_ok_length
    (parse : List (List Char) → Except (List Char) (List (List Char × List Char))) :
    ∀ (lines acc : List (List Char)) (inCall : Bool) (r : List (List Char × List Char)),
      extractLoop parse lines acc inCall = .ok r → r.length ≤ 1 := by
  intro lines
  induction lines with
  | nil =>
    intro acc inCall r h
    simp only [extractLoop] at h
    cases h
    simp
  | cons line rest ih =>
    intro acc inCall r h
    rw [extractLoop] at h
    split at h
    · exact ih _ _ _ h
    · split at h
      · split at h
        · split at h
          · simp at h
          · rename_i m hm
            split at h
            · cases h; simp
            · simp at h
        · exact ih _ _ _ h
      · split at h
        · exact ih _ _ _ h
        · exact ih _ _ _ h

theorem extractLoop_skip (parse : List (List Char) → Except (List Char) (List (List Char × List Char))) :
    ∀ (pre ls acc : List (List Char)),
      (∀ l ∈ pre, containsSub l startMarker = false ∧ containsSub l endMarker = false) →
      extractLoop parse (pre ++ ls) acc false = extractLoop parse ls acc false := by
  intro pre
  induction pre with
  | nil => intro ls acc _; rfl
  | cons l rest ih =>
    intro ls acc h
    have hl := h l (by simp)
    rw [List.cons_append, extractLoop, if_neg (by simp [hl.1]),
      if_neg (by simp [hl.2]), if_neg (by simp)]
    exact ih ls acc (fun x hx => h x (List.mem_cons_of_mem _ hx))

theorem extractLoop_collect (parse : List (List Char) → Except (List Char) (List (List Char × List Char))) :
    ∀ (block ls acc : List (List Char)),
      (∀ l ∈ block, containsSub l startMarker = false ∧ containsSub l endMarker = false) →
      extractLoop parse (block ++ ls) acc true = extractLoop parse ls (acc ++ block) true := by
  intro block
  induction block with
  | nil => intro ls acc _; simp
  | cons l rest ih =>
    intro ls acc h
    have hl := h l (by simp)
    rw [List.cons_append, extractLoop, if_neg (by simp [hl.1]),
      if_neg (by simp [hl.2]), if_pos rfl]
    rw [ih ls (acc ++ [l]) (fun x hx => h x (List.mem_cons_of_mem _ hx))]
    simp

/-- C2 counterexample: a response with an opening `<START_TOOL_CALL>` and no
closing marker does NOT raise — `extract_tool_calls` falls off the end of the
line loop and returns the empty list (no call), for any YAML parser (which is
never invoked). -/
theorem unmatched_marker_returns_no_call :
    extract_tool_calls (fun _ => .error []) "<START_TOOL_CALL>\nname: foo".toList =
      .ok [] ∧
    ∀ msg, (Except.ok [] : Except (List Char) (List (List Char × List Char))) ≠
      .error msg :=
  ⟨rfl, fun _ h => Except.noConfusion h⟩

theorem extractLoop_no_end
    (parse : List (List Char) → Except (List Char) (List (List Char × List Char))) :
    ∀ lines : List (List Char), (∀ l ∈ lines, containsSub l endMarker = false) →
      ∀ (acc : List (List Char)) (inCall : Bool),
        extractLoop parse lines acc inCall = .ok [] := by
  intro lines
  induction lines with
  | nil => intro _ acc inCall; rfl
  | cons l rest ih =>
    intro h acc inCall
    have hl := h l (by simp)
    have hrest : ∀ x ∈ rest, containsSub x endMarker = false :=
      fun x hx => h x (List.mem_cons_of_mem _ hx)
    rw [extractLoop]
    by_cases hs : containsSub l startMarker = true
    · rw [if_pos hs]; exact ih hrest _ _
    · rw [if_neg hs, if_neg (by simp [hl])]
      cases inCall with
      | false => rw [if_neg (by simp)]; exact ih hrest _ _
      | true => rw [if_pos rfl]; exact ih hrest _ _

/-- C2 (amended): for every response text none of whose lines contains the
closing marker `<END_TOOL_CALL>`, extraction returns the absence of a call
(`ok []`) — in particular an unmatched opening marker is treated as "no call",
not as an error. -/
theorem no_end_marker_no_call
    (parse : List (List Char) → Except (List Char) (List (List Char × List Char)))
    (content : List Char)
    (h : ∀ l ∈ splitOnNl content, containsSub l endMarker = false) :
    extract_tool_calls parse content = .ok [] :=
  extractLoop_no_end parse (splitOnNl content) h [] false

/-- Witness for C2 (amended): a concrete response whose opening marker is
never closed yields no call. -/
theorem no_end_marker_no_call_witness :
    extract_tool_calls (fun _ => .error [])
      "<START_TOOL_CALL>\nname: x\narguments: y".toList = .ok [] :=
  no_end_marker_no_call (fun _ => .error [])
    "<START_TOOL_CALL>\nname: x\narguments: y".toList (by decide)

/-- C3: extraction yields at most one tool call per pass, and when a response
contains two or more well-formed call blocks only the first complete block is
honored: its `name` and `arguments` are returned and everything after its
closing marker — including further well-formed blocks — is ignored. -/
theorem extract_first_block_only
    (parse : List (List Char) → Except (List Char) (List (List Char × List Char))) :
    (∀ (content : List Char) (r : List (List Char × List Char)),
      extract_tool_calls parse content = .ok r → r.length ≤ 1) ∧
    (∀ (pre block rest : List (List Char)) (m : List (List Char × List Char))
      (n a : List Char),
      (∀ l ∈ pre, containsSub l startMarker = false ∧
        containsSub l endMarker = false ∧ '\n' ∉ l) →
      (∀ l ∈ block, containsSub l startMarker = false ∧
        containsSub l endMarker = false ∧ '\n' ∉ l) →
      block ≠ [] →
      (∀ l ∈ rest, '\n' ∉ l) →
      parse block = .ok m →
      lookupA m "name".toList = some n →
      lookupA m "arguments".toList = some a →
      extract_tool_calls parse
        (joinNl (pre ++ [startMarker] ++ block ++ [endMarker] ++ rest)) =
        .ok [(n, a)]) := by
  constructor
  · intro content r h
    exact extractLoop_ok_length parse _ _ _ _ h
  · intro pre block rest m n a hpre hblock hbne hrest hparse hn ha
    have hnl : ∀ l ∈ pre ++ [startMarker] ++ block ++ [endMarker] ++ rest, '\n' ∉ l := by
      intro l hl
      simp only [List.append_assoc, List.mem_append, List.mem_singleton] at hl
      rcases hl with hl | hl | hl | hl | hl
      · exact (hpre l hl).2.2
      · subst hl; decide
      · exact (hblock l hl).2.2
      · subst hl; decide
      · exact hrest l hl
    have hne2 : pre ++ [startMarker] ++ block ++ [endMarker] ++ rest ≠ [] := by
      simp
    rw [extract_tool_calls, splitOnNl_joinNl _ hne2 hnl]
    rw [show pre ++ [startMarker] ++ block ++ [endMarker] ++ rest =
      pre ++ ([startMarker] ++ (block ++ ([endMarker] ++ rest))) by
        simp [List.append_assoc]]
    rw [extractLoop_skip parse pre _ []
      (fun l hl => ⟨(hpre l hl).1, (hpre l hl).2.1⟩)]
    rw [List.singleton_append, extractLoop, if_pos (containsSub_refl startMarker)]
    rw [extractLoop_collect parse block _ []
      (fun l hl => ⟨(hblock l hl).1, (hblock l hl).2.1⟩)]
    rw [List.singleton_append, extractLoop]
    rw [if_neg (by decide), if_pos (containsSub_refl endMarker)]
    simp only [List.nil_append]
    rw [if_pos (by simp [hbne]), hparse]
    simp only [hn, ha]

/-- Witness for C3: with a parser that maps the block's lines to a
`name`/`arguments` mapping, a response holding two complete well-formed blocks
returns only the first block's call, and that result has length at most 1. -/
theorem extract_first_block_only_witness :
    extract_tool_calls
      (fun ls => .ok [("name".toList, joinNl ls), ("arguments".toList, [])])
      (joinNl ([] ++ [startMarker] ++ ["foo".toList] ++ [endMarker] ++
        [startMarker, "bar".toList, endMarker])) = .ok [("foo".toList, [])] ∧
    [("foo".toList, ([] : List Char))].length ≤ 1 := by
  have h := extract_first_block_only
    (fun ls => .ok [("name".toList, joinNl ls), ("arguments".toList, [])])
  refine ⟨h.2 [] ["foo".toList] [startMarker, "bar".toList, endMarker]
    [("name".toList, "foo".toList), ("arguments".toList, [])]
    "foo".toList [] (by simp) (by decide) (by decide) (by decide) rfl rfl rfl, ?_⟩
  exact h.1 (joinNl ([] ++ [startMarker] ++ ["foo".toList] ++ [endMarker] ++
    [startMarker, "bar".toList, endMarker])) [("foo".toList, [])]
    (h.2 [] ["foo".toList] [startMarker, "bar".toList, endMarker]
      [("name".toList, "foo".toList), ("arguments".toList, [])]
      "foo".toList [] (by simp) (by decide) (by decide) (by decide) rfl rfl rfl)

/-! ## Lemmas about the `_call_model` retry loop -/

theorem iterCapD_succ_out (n st : Nat) :
    iterCapD (n + 1) st = capDouble (iterCapD n st) := by
  induction n generalizing st with
  | zero => rfl
  | succ k ih => rw [iterCapD, ih, iterCapD]

theorem delaySeq_eq_iterCapD (n : Nat) : delaySeq n = iterCapD n 5 := by
  induction n with
  | zero => rfl
  | succ k ih => rw [delaySeq, ih, iterCapD_succ_out]

theorem map_delaySeq (l : List Nat) :
    l.map (fun i => iterCapD i 5) = l.map delaySeq := by
  induction l with
  | nil => rfl
  | cons x xs ih => simp [ih, delaySeq_eq_iterCapD]

theorem delaySeq_ge_three (n : Nat) (h : 3 ≤ n) : delaySeq n = 30 := by
  induction n with
  | zero => omega
  | succ k ih =>
    rcases Nat.lt_or_ge k 3 with hk | hk
    · interval_cases k
      · omega
      · omega
      · rfl
    · rw [delaySeq, ih hk]; rfl

theorem callModelLoop_all_fail (resp : Nat → List Char) (h : ∀ k, resp k = []) :
    ∀ (fuel k st : Nat),
      callModelLoop resp fuel k st =
        ((List.range fuel).map (fun i => iterCapD i st), none) := by
  intro fuel
  induction fuel with
  | zero => intro k st; rfl
  | succ f ih =>
    intro k st
    rw [callModelLoop, if_neg (by simp [h k]), ih (k + 1) (capDouble st)]
    rw [List.range_succ_eq_map]
    simp only [List.map_cons, List.map_map]
    rfl

theorem callModelLoop_first_success (resp : Nat → List Char) :
    ∀ (m fuel k st : Nat), (∀ j, j < m → resp (k + j) = []) →
      resp (k + m) ≠ [] → m < fuel →
      callModelLoop resp fuel k st =
        ((List.range m).map (fun i => iterCapD i st), some (resp (k + m))) := by
  intro m
  induction m with
  | zero =>
    intro fuel k st _ h2 hf
    cases fuel with
    | zero => omega
    | succ f => rw [callModelLoop, if_pos (by simpa using h2)]; rfl
  | succ m2 ih =>
    intro fuel k st h1 h2 hf
    cases fuel with
    | zero => omega
    | succ f =>
      have hk : resp k = [] := by simpa using h1 0 (Nat.succ_pos _)
      rw [callModelLoop, if_neg (by simp [hk])]
      rw [ih f (k + 1) (capDouble st)
        (fun j hj => by
          have := h1 (j + 1) (by omega)
          simpa [Nat.add_assoc, Nat.add_comm 1 j] using this)
        (by
          have : k + 1 + m2 = k + (m2 + 1) := by omega
          rw [this]; exact h2)
        (by omega)]
      rw [List.range_succ_eq_map]
      simp only [List.map_cons, List.map_map]
      have : k + 1 + m2 = k + (m2 + 1) := by omega
      rw [this]
      rfl

/-- C8: the retry delays of `_call_model` on consecutive failed transport
calls start at 5 seconds, double after each failure, and are capped at 30
(so they run 5, 10, 20, 30, 30, …); when every call fails the loop never
produces a result no matter how many attempts it is allowed, and when the
`m`-th call is the first success the loop returns exactly that response after
sleeping `delaySeq 0, …, delaySeq (m-1)`. -/
theorem call_model_backoff :
    (∀ n, delaySeq n =
      if n = 0 then 5 else if n = 1 then 10 else if n = 2 then 20 else 30) ∧
    (∀ resp : Nat → List Char, (∀ k, resp k = []) → ∀ fuel,
      call_model resp fuel = ((List.range fuel).map delaySeq, none)) ∧
    (∀ (resp : Nat → List Char) (m : Nat), (∀ j, j < m → resp j = []) →
      resp m ≠ [] → ∀ fuel, m < fuel →
      call_model resp fuel = ((List.range m).map delaySeq, some (resp m))) := by
  refine ⟨?_, ?_, ?_⟩
  · intro n
    match n with
    | 0 => rfl
    | 1 => rfl
    | 2 => rfl
    | (k + 3) =>
      rw [delaySeq_ge_three (k + 3) (by omega)]
      simp
  · intro resp h fuel
    rw [call_model, callModelLoop_all_fail resp h fuel 0 5, map_delaySeq]
  · intro resp m h1 h2 fuel hf
    rw [call_model,
      callModelLoop_first_success resp m fuel 0 5 (fun j hj => by simpa using h1 j hj)
        (by simpa using h2) hf, map_delaySeq]
    simp

/-- Witness for C8: five failures sleep 5, 10, 20, 30, 30 seconds and still
return nothing; a first success at attempt 3 is returned after sleeping
5, 10, 20. -/
theorem call_model_backoff_witness :
    delaySeq 3 = 30 ∧
    call_model (fun _ => []) 5 = ([5, 10, 20, 30, 30], none) ∧
    call_model (fun k => if k < 3 then [] else "ok".toList) 9 =
      ([5, 10, 20], some "ok".toList) := by
  refine ⟨?_, ?_, ?_⟩
  · simpa using call_model_backoff.1 3
  · rw [call_model_backoff.2.1 (fun _ => []) (fun _ => rfl) 5]
    rfl
  · rw [call_model_backoff.2.2 (fun k => if k < 3 then [] else "ok".toList) 3
      (fun j hj => by simp [hj]) (by simp) 9 (by omega)]
    rfl

/-- C7 counterexample: after `_summarize_and_clear_history` completes
successfully on a conversation with several turns, the platform's message
list (the conversation state) is EMPTY — it does not consist of a system turn
plus a summary turn, and its length is 0, not 2.  The system message survives
only as the platform's `system_message` field and the summary only as the
agent's pending prompt. -/
theorem summarize_leaves_empty_history :
    (summarize_and_clear_history "SUM".toList true
      ⟨⟨[(true, "u1".toList), (false, "a1".toList),
         (true, "u2".toList), (false, "a2".toList)],
        "sys".toList, true, false⟩, "p".toList, 7⟩).model.messages.length = 0 ∧
    (0 : Nat) ≠ 2 :=
  ⟨rfl, by decide⟩

/-- C7 (amended): after a successful summarization the platform message list
is empty (all turns removed), `conversation_turns` is 0, the system message is
retained in the platform's `system_message` field with `first_chat` re-armed,
and the summary is held in the pending prompt; the next `chat` call therefore
opens the new conversation with a single user message consisting of the system
message followed by the wrapped summary. -/
theorem summarize_resets_state (reply reply2 : List Char) (a : AgentSt) :
    (summarize_and_clear_history reply true a).model.messages = [] ∧
    (summarize_and_clear_history reply true a).model.system_message =
      a.model.system_message ∧
    (summarize_and_clear_history reply true a).conversation_turns = 0 ∧
    (summarize_and_clear_history reply true a).model.first_chat = true ∧
    (summarize_and_clear_history reply true a).prompt =
      summaryWrapA ++ reply ++ summaryWrapB ∧
    (oyiChat reply2 (summarize_and_clear_history reply true a).model
        (summarize_and_clear_history reply true a).prompt).1.messages =
      [(true, a.model.system_message ++ '\n' ::
          (summaryWrapA ++ reply ++ summaryWrapB)),
       (false, reply2)] :=
  ⟨rfl, rfl, rfl, rfl, rfl, rfl⟩

/-! ## Lemmas about association lists and `git reset --hard` -/

theorem lookupA_append_some (m1 m2 : List (List Char × List Char))
    (k : List Char) (v : List Char) (h : lookupA m1 k = some v) :
    lookupA (m1 ++ m2) k = some v := by
  induction m1 with
  | nil => simp [lookupA] at h
  | cons kv rest ih =>
    rw [lookupA] at h
    rw [List.cons_append, lookupA]
    split at h
    · rename_i hk; rw [if_pos hk]; exact h
    · rename_i hk; rw [if_neg hk]; exact ih h

theorem lookupA_append_none (m1 m2 : List (List Char × List Char))
    (k : List Char) (h : lookupA m1 k = none) :
    lookupA (m1 ++ m2) k = lookupA m2 k := by
  induction m1 with
  | nil => rfl
  | cons kv rest ih =>
    rw [lookupA] at h
    rw [List.cons_append, lookupA]
    split at h
    · simp at h
    · rename_i hk; rw [if_neg hk]; exact ih h

theorem lookupA_filter_key (gk : List Char → Bool)
    (m : List (List Char × List Char)) (k : List Char) :
    lookupA (m.filter (fun kv => gk kv.1)) k =
      if gk k then lookupA m k else none := by
  induction m with
  | nil => simp [lookupA]
  | cons kv rest ih =>
    by_cases hk : kv.1 = k
    · subst hk
      by_cases hg : gk kv.1 = true <;> simp [List.filter_cons, lookupA, hg, ih]
    · by_cases hg : gk kv.1 = true <;> simp [List.filter_cons, lookupA, hk, hg, ih]

/-- What `git reset --hard` leaves in the working tree, per path: tracked
paths (present at HEAD) are restored to HEAD, paths only in the index are
removed, untracked paths survive unchanged. -/
theorem resetHardRepo_lookup (r : RepoGit) (p : List Char) :
    lookupA (resetHardRepo r).working p =
      match lookupA r.head p, lookupA r.index p with
      | some c, _ => some c
      | none, some _ => none
      | none, none => lookupA r.working p := by
  rw [resetHardRepo]
  cases hh : lookupA r.head p with
  | some c =>
    simp only
    exact lookupA_append_some _ _ _ _ hh
  | none =>
    rw [lookupA_append_none _ _ _ hh,
      lookupA_filter_key (fun k => (lookupA r.index k).isNone && (lookupA r.head k).isNone)]
    cases hi : lookupA r.index p with
    | some c => simp [hi, hh]
    | none => simp [hi, hh]

/-- C5 counterexample: a coder-workflow patch session on an empty, clean
repository in which the model emits an anchored patch for the non-existent
file `src/f` (the patch fails to match against the freshly created empty
file, the user skips the file, then declines the keep-changes confirmation).
The session reports rejection, but the final working tree is NOT the
pre-session baseline: `apply_file_patch` created an untracked empty file
`src/f` and `git reset --hard` does not remove untracked files, so `src/f`
survives the rollback while the baseline had no files at all. -/
theorem patch_application_decline_keeps_untracked_file :
    handle_patch_application
      (fun _ => "<PATCH>\n>>>>>> SEARCH\nZ\n======\nW\n<<<<<< REPLACE\n</PATCH>".toList)
      (fun n => if n = 0 then "2".toList else "n".toList)
      3 ["src/f".toList] ⟨[], [], []⟩ =
      .ok (false, ⟨[], [], [("src/f".toList, [])]⟩) ∧
    ([("src/f".toList, ([] : List Char))] : List (List Char × List Char)) ≠ [] :=
  ⟨rfl, by decide⟩

/-- C5 (amended): when the user declines the commit confirmation the session
reports rejection in both workflows; in the code-agent workflow
(`handle_commit_workflow`) the decline path runs `git reset --hard` plus
`git clean -fd`, so the working tree equals the baseline (HEAD) exactly; in
the coder workflow (`handle_patch_application`) the decline path only runs
`git reset --hard`, which restores every tracked path to its baseline content
but leaves files that were created untracked during the session. -/
theorem commit_decline_rolls_back
    (commit : RepoGit → Bool × RepoGit) (r : RepoGit)
    (responses inputs : Nat → List Char) (fuel : Nat) (files : List (List Char))
    (r0 r1 : RepoGit) (ri1 ii1 : Nat)
    (hmain : apply_patch_main responses inputs fuel files r0 0 0 =
      .ok (true, r1, ri1, ii1))
    (hraw : inputs ii1 ≠ []) (hno : toLowerL (inputs ii1) ≠ "y".toList) :
    handle_commit_workflow true false commit r = (false, revert_change r) ∧
    (revert_change r).working = r.head ∧
    handle_patch_application responses inputs fuel files r0 =
      .ok (false, resetHardRepo r1) ∧
    (∀ p c, lookupA r1.head p = some c →
      lookupA (resetHardRepo r1).working p = some c) := by
  refine ⟨rfl, rfl, ?_, ?_⟩
  · rw [handle_patch_application, hmain]
    simp only [if_pos rfl, if_neg (by simpa using hraw)]
    rw [if_pos hno]
    simp
  · intro p c hpc
    rw [resetHardRepo_lookup, hpc]

/-- Witness for C5 (amended): a one-file repository whose tracked file `g`
survives a declined session unchanged (the failed anchored patch plus skip
leaves the tree untouched and the decline resets it to HEAD). -/
theorem commit_decline_rolls_back_witness :
    handle_commit_workflow true false (fun r => (true, r))
        ⟨[("g".toList, "G".toList)], [("g".toList, "G".toList)],
         [("g".toList, "G".toList)]⟩ =
      (false, ⟨[("g".toList, "G".toList)], [("g".toList, "G".toList)],
        [("g".toList, "G".toList)]⟩) ∧
    handle_patch_application
        (fun _ => "<PATCH>\n>>>>>> SEARCH\nZ\n======\nW\n<<<<<< REPLACE\n</PATCH>".toList)
        (fun n => if n = 0 then "2".toList else "n".toList)
        3 ["g".toList]
        ⟨[("g".toList, "G".toList)], [("g".toList, "G".toList)],
         [("g".toList, "G".toList)]⟩ =
      .ok (false, resetHardRepo
        ⟨[("g".toList, "G".toList)], [("g".toList, "G".toList)],
         [("g".toList, "G".toList)]⟩) ∧
    lookupA (resetHardRepo
        ⟨[("g".toList, "G".toList)], [("g".toList, "G".toList)],
         [("g".toList, "G".toList)]⟩).working "g".toList = some "G".toList := by
  have h := commit_decline_rolls_back (fun r => (true, r))
    ⟨[("g".toList, "G".toList)], [("g".toList, "G".toList)],
     [("g".toList, "G".toList)]⟩
    (fun _ => "<PATCH>\n>>>>>> SEARCH\nZ\n======\nW\n<<<<<< REPLACE\n</PATCH>".toList)
    (fun n => if n = 0 then "2".toList else "n".toList)
    3 ["g".toList]
    ⟨[("g".toList, "G".toList)], [("g".toList, "G".toList)],
     [("g".toList, "G".toList)]⟩
    ⟨[("g".toList, "G".toList)], [("g".toList, "G".toList)],
     [("g".toList, "G".toList)]⟩
    1 1 rfl (by decide) (by decide)
  exact ⟨h.1, h.2.2.1, h.2.2.2 "g".toList "G".toList rfl⟩

/-! ## Lemmas for multi-block parsing (C6) -/

theorem startsWithL_self_append (p t : List Char) :
    startsWithL p (p ++ t) = true := by
  induction p with
  | nil => rfl
  | cons c cs ih => simp [startsWithL, ih]

theorem findSub_at_zero (pat s : List Char) (h : startsWithL pat s = true) :
    findSub pat s = some 0 := by
  cases s with
  | nil => rw [findSub, if_pos h]
  | cons c cs => rw [findSub, if_pos h]

theorem startsWithL_cons_ne (c : Char) (p : List Char) (x : Char)
    (s : List Char) (h : x ≠ c) : startsWithL (c :: p) (x :: s) = false := by
  simp [startsWithL, Ne.symm h]

theorem findSub_append_of (c : Char) (p xs ys : List Char)
    (hx : ∀ a ∈ xs, a ≠ c) :
    findSub (c :: p) (xs ++ (c :: p) ++ ys) = some xs.length := by
  induction xs with
  | nil =>
    simp only [List.nil_append]
    exact findSub_at_zero _ _ (startsWithL_self_append (c :: p) ys)
  | cons x xs' ih =>
    rw [List.cons_append, List.cons_append, findSub,
      if_neg (by simp [startsWithL_cons_ne c p x _ (hx x (by simp))])]
    rw [ih (fun a ha => hx a (List.mem_cons_of_mem _ ha))]
    rfl

theorem lookupA_dictInsert (m : List (List Char × List Char)) (k v k2 : List Char) :
    lookupA (dictInsert m k v) k2 = if k = k2 then some v else lookupA m k2 := by
  induction m with
  | nil => rfl
  | cons kv rest ih =>
    rw [dictInsert]
    by_cases hk : kv.1 = k
    · rw [if_pos hk, lookupA, lookupA]
      by_cases h2 : k = k2
      · rw [if_pos h2, if_pos h2]
      · rw [if_neg h2, if_neg h2, if_neg (by rw [hk]; exact h2)]
    · rw [if_neg hk, lookupA, lookupA]
      by_cases h2 : kv.1 = k2
      · rw [if_pos h2, if_pos h2, if_neg (by rw [← h2]; exact fun h => hk h.symm)]
      · rw [if_neg h2, if_neg h2, ih]

theorem lookupA_foldl_dictInsert :
    ∀ (l acc : List (List Char × List Char)) (k : List Char),
      lookupA (List.foldl (fun m ab => dictInsert m ab.1 ab.2) acc l) k =
        match lookupA l.reverse k with
        | some v => some v
        | none => lookupA acc k := by
  intro l
  induction l with
  | nil => intro acc k; rfl
  | cons ab l' ih =>
    intro acc k
    rw [List.foldl_cons, ih]
    rw [List.reverse_cons]
    cases hl : lookupA l'.reverse k with
    | some v => rw [lookupA_append_some _ _ _ _ hl]
    | none =>
      rw [lookupA_append_none _ _ _ hl, lookupA_dictInsert]
      by_cases hk : ab.1 = k
      · rw [if_pos hk]
        simp [lookupA, hk]
      · rw [if_neg hk]
        simp [lookupA, hk]

theorem stripTrailNl_concat_nl (l : List Char) : stripTrailNl (l ++ ['\n']) = l := by
  simp [stripTrailNl, List.getLast?_concat, List.dropLast_concat]

theorem findBlocksAux_step (mid rest : List Char) (hmid : ∀ a ∈ mid, a ≠ '<') (fuel : Nat) :
    findBlocksAux (fuel + 1) (openTag ++ (mid ++ (closeTag ++ rest))) =
      stripLeadNl (stripTrailNl mid) :: findBlocksAux fuel rest := by
  have hfind : findSub closeTag (mid ++ (closeTag ++ rest)) = some mid.length := by
    rw [show mid ++ (closeTag ++ rest) = mid ++ closeTag ++ rest from
      (List.append_assoc _ _ _).symm]
    rw [show closeTag = '<' :: "/PATCH>".toList from rfl]
    exact findSub_append_of '<' _ mid rest hmid
  have htake : (mid ++ (closeTag ++ rest)).take mid.length = mid := List.take_left _ _
  have hdrop : (mid ++ (closeTag ++ rest)).drop (mid.length + closeTag.length) = rest := by
    rw [show mid ++ (closeTag ++ rest) = (mid ++ closeTag) ++ rest from
      (List.append_assoc _ _ _).symm, ← List.length_append]
    exact List.drop_left _ _
  rw [findBlocksAux]
  rw [findSub_at_zero _ _ (startsWithL_self_append _ _)]
  simp only [List.drop_zero, List.drop_left]
  rw [hfind]
  simp only [htake, hdrop]

theorem findBlocksAux_cons (p inner rest : List Char) (hgood : goodA (p, inner)) (fuel : Nat) :
    findBlocksAux (fuel + 1) (mkBlockA p inner ++ rest) =
      bodyA p inner :: findBlocksAux fuel rest := by
  have hmid : ∀ a ∈ '\n' :: (bodyA p inner ++ ['\n']), a ≠ '<' := by
    intro a ha
    rcases List.mem_cons.mp ha with h1 | h1
    · subst h1; decide
    rcases List.mem_append.mp h1 with h2 | h2
    · rw [bodyA] at h2
      rcases List.mem_append.mp h2 with h3 | h3
      · rcases List.mem_append.mp h3 with h4 | h4
        · have hfile : ∀ b ∈ "File: ".toList, b ≠ '<' := by decide
          exact hfile a h4
        · exact (hgood.1 a h4).1
      · rcases List.mem_cons.mp h3 with h4 | h4
        · subst h4; decide
        · exact hgood.2 a h4
    · have h3 := List.mem_singleton.mp h2
      subst h3; decide
  have hshape : mkBlockA p inner ++ rest =
      openTag ++ (('\n' :: (bodyA p inner ++ ['\n'])) ++ (closeTag ++ rest)) := by
    simp [mkBlockA, List.append_assoc]
  rw [hshape, findBlocksAux_step _ rest hmid fuel]
  rw [show ('\n' :: (bodyA p inner ++ ['\n'])) = ('\n' :: bodyA p inner) ++ ['\n'] from by simp]
  rw [stripTrailNl_concat_nl]
  rfl

theorem findBlocks_join (bs : List (List Char × List Char)) :
    ∀ fuel, (∀ b ∈ bs, goodA b) → bs.length < fuel →
      findBlocksAux fuel (joinBlocksA bs) = bs.map (fun pi => bodyA pi.1 pi.2) := by
  induction bs with
  | nil =>
    intro fuel _ hf
    cases fuel with
    | zero => omega
    | succ f => rfl
  | cons b bs' ih =>
    intro fuel hgood hf
    cases fuel with
    | zero => omega
    | succ f =>
      have hj : joinBlocksA (b :: bs') = mkBlockA b.1 b.2 ++ joinBlocksA bs' := by
        simp [joinBlocksA]
      rw [hj, findBlocksAux_cons b.1 b.2 _ (hgood b (by simp)) f]
      rw [ih f (fun x hx => hgood x (List.mem_cons_of_mem _ hx)) (by simpa using hf)]
      simp

theorem takeWhile_append_stop (xs : List Char)
    (hx : ∀ c ∈ xs, isLineTerm c = false) (ys : List Char) :
    (xs ++ '\n' :: ys).takeWhile (fun c => !isLineTerm c) = xs := by
  induction xs with
  | nil => rfl
  | cons c cs ih =>
    rw [List.cons_append, List.takeWhile_cons]
    rw [if_pos (by simp [hx c (by simp)])]
    rw [ih (fun a ha => hx a (List.mem_cons_of_mem _ ha))]

theorem firstLineOf_bodyA (p inner : List Char)
    (hp : ∀ a ∈ p, a ≠ '\n' ∧ a ≠ '\r') :
    firstLineOf (bodyA p inner) = "File: ".toList ++ p := by
  rw [bodyA, firstLineOf]
  rw [show "File: ".toList ++ p ++ '\n' :: inner =
    ("File: ".toList ++ p) ++ '\n' :: inner from List.append_assoc _ _ _]
  refine takeWhile_append_stop _ ?_ inner
  intro c hc
  rcases List.mem_append.mp hc with h | h
  · revert h
    have : ∀ c ∈ "File: ".toList, isLineTerm c = false := by decide
    exact this c
  · simp [isLineTerm, (hp c h).1, (hp c h).2]

theorem trimWs_cons_space (l : List Char) : trimWs (' ' :: l) = trimWs l := by
  simp [trimWs, trimLeft, List.dropWhile_cons, pyIsSpace]

theorem parseBlocksAux_cons_good (acc : List (List Char × List Char))
    (p inner : List Char) (hgood : goodA (p, inner)) (rest : List (List Char)) :
    parseBlocksAux acc (bodyA p inner :: rest) =
      parseBlocksAux (dictInsert acc (trimWs p) (bodyA p inner)) rest := by
  rw [parseBlocksAux]
  rw [if_neg (by simp [bodyA])]
  rw [firstLineOf_bodyA p inner (fun a ha => ⟨(hgood.1 a ha).2.1, (hgood.1 a ha).2.2⟩)]
  have hpre : startsWithL "File:".toList ("File: ".toList ++ p) = true := by
    rw [show "File: ".toList ++ p = "File:".toList ++ (' ' :: p) from rfl]
    exact startsWithL_self_append _ _
  have hdrop : ("File: ".toList ++ p).drop 5 = ' ' :: p := rfl
  rw [if_pos (by
    simp [hdrop]
    exact startsWithL_self_append "File:".toList (' ' :: p))]
  rw [hdrop, trimWs_cons_space]

theorem parse_bodies (bs : List (List Char × List Char)) :
    ∀ acc, (∀ b ∈ bs, goodA b) →
      parseBlocksAux acc (bs.map (fun pi => bodyA pi.1 pi.2)) =
        some (List.foldl (fun m pi => dictInsert m (trimWs pi.1) (bodyA pi.1 pi.2))
          acc bs) := by
  induction bs with
  | nil => intro acc _; rfl
  | cons b bs' ih =>
    intro acc hgood
    rw [List.map_cons, parseBlocksAux_cons_good acc b.1 b.2 (hgood b (by simp))]
    rw [ih _ (fun x hx => hgood x (List.mem_cons_of_mem _ hx))]
    rfl

theorem eqRunLen_cons_ne (x : Char) (l : List Char) (h : x ≠ '=') :
    eqRunLen (x :: l) = 0 := by
  rw [eqRunLen.eq_def]
  split
  · rename_i rest heq
    injection heq with h1 _
    exact absurd h1 h
  · rfl

theorem eqRunLen_of_head_ne (s : List Char) (h : ∀ c ∈ s.take 1, c ≠ '=') :
    eqRunLen s = 0 := by
  cases s with
  | nil => rfl
  | cons c cs => exact eqRunLen_cons_ne c cs (h c (by simp))

theorem sepLen_boundary (t : List Char) :
    sepLen ('\n' :: ("======".toList ++ '\n' :: t)) = some 8 := rfl

theorem sepLen_mismatch (x : Char) (rest : List Char) (hx : x ≠ '=')
    (hrest : ∀ c ∈ rest.take 1, c ≠ '=') :
    sepLen (x :: rest) = none := by
  by_cases hnl : x = '\n'
  · subst hnl
    have h0 : eqRunLen rest = 0 := eqRunLen_of_head_ne rest hrest
    simp [sepLen, h0]
  · have h0 : eqRunLen (x :: rest) = 0 := eqRunLen_cons_ne x rest hx
    rw [sepLen.eq_def]
    split
    · rename_i r heq
      injection heq with h1 _
      exact absurd h1 hnl
    · rename_i heq
      simp [h0]

theorem scanSepPos_boundary :
    ∀ (xs t : List Char), (∀ a ∈ xs, a ≠ '=') →
      scanSepPos (xs ++ ('\n' :: ("======".toList ++ '\n' :: t))) =
        some (xs.length, 8) := by
  intro xs
  induction xs with
  | nil =>
    intro t _
    rw [List.nil_append, scanSepPos, sepLen_boundary]
    rfl
  | cons x xs' ih =>
    intro t hx
    rw [List.cons_append, scanSepPos]
    have hm : sepLen (x :: (xs' ++ ('\n' :: ("======".toList ++ '\n' :: t)))) = none := by
      refine sepLen_mismatch x _ (hx x (by simp)) ?_
      cases xs' with
      | nil =>
        intro c hc; simp at hc; subst hc; decide
      | cons z zs =>
        intro c hc; simp at hc; subst hc; exact hx c (by simp)
    rw [hm]
    rw [ih t (fun a ha => hx a (List.mem_cons_of_mem _ ha))]
    rfl

theorem extractPatchesAux_cons (pc : Patch) (rest : List Char)
    (hgood : goodSR pc) (fuel : Nat) :
    extractPatchesAux (fuel + 1) (mkSRBlock pc ++ rest) =
      pc :: extractPatchesAux fuel rest := by
  have hshape : mkSRBlock pc ++ rest =
      srHeader ++ (pc.old_code ++ ('\n' :: ("======".toList ++ '\n' ::
        ((pc.new_code ++ ['\n']) ++ (srTrailer ++ rest))))) := by
    simp [mkSRBlock, List.append_assoc]
  have hsep : scanSepPos (pc.old_code ++ ('\n' :: ("======".toList ++ '\n' ::
      ((pc.new_code ++ ['\n']) ++ (srTrailer ++ rest))))) =
      some (pc.old_code.length, 8) :=
    scanSepPos_boundary pc.old_code _ (fun a ha => (hgood.1 a ha).1)
  have htrail : findSub srTrailer ((pc.new_code ++ ['\n']) ++ (srTrailer ++ rest)) =
      some (pc.new_code ++ ['\n']).length := by
    rw [show (pc.new_code ++ ['\n']) ++ (srTrailer ++ rest) =
      (pc.new_code ++ ['\n']) ++ srTrailer ++ rest from (List.append_assoc _ _ _).symm]
    rw [show srTrailer = '<' :: "<<<<< REPLACE\n</PATCH>".toList from rfl]
    refine findSub_append_of '<' _ _ rest ?_
    intro a ha
    rcases List.mem_append.mp ha with h | h
    · exact hgood.2 a h
    · simp at h; subst h; decide
  have htake1 : (pc.old_code ++ ('\n' :: ("======".toList ++ '\n' ::
      ((pc.new_code ++ ['\n']) ++ (srTrailer ++ rest))))).take pc.old_code.length =
      pc.old_code := List.take_left _ _
  have hdrop1 : (pc.old_code ++ ('\n' :: ("======".toList ++ '\n' ::
      ((pc.new_code ++ ['\n']) ++ (srTrailer ++ rest))))).drop
        (pc.old_code.length + 8) =
      (pc.new_code ++ ['\n']) ++ (srTrailer ++ rest) := by
    rw [show pc.old_code ++ ('\n' :: ("======".toList ++ '\n' ::
        ((pc.new_code ++ ['\n']) ++ (srTrailer ++ rest)))) =
      (pc.old_code ++ ('\n' :: "======".toList ++ ['\n'])) ++
        ((pc.new_code ++ ['\n']) ++ (srTrailer ++ rest)) from by
          simp [List.append_assoc]]
    rw [show pc.old_code.length + 8 =
      (pc.old_code ++ ('\n' :: "======".toList ++ ['\n'])).length from by simp]
    exact List.drop_left _ _
  have htake2 : ((pc.new_code ++ ['\n']) ++ (srTrailer ++ rest)).take
      (pc.new_code ++ ['\n']).length = pc.new_code ++ ['\n'] := List.take_left _ _
  have hdrop2 : ((pc.new_code ++ ['\n']) ++ (srTrailer ++ rest)).drop
      ((pc.new_code ++ ['\n']).length + srTrailer.length) = rest := by
    rw [show (pc.new_code ++ ['\n']) ++ (srTrailer ++ rest) =
      ((pc.new_code ++ ['\n']) ++ srTrailer) ++ rest from (List.append_assoc _ _ _).symm,
      ← List.length_append]
    exact List.drop_left _ _
  rw [hshape, extractPatchesAux]
  rw [findSub_at_zero _ _ (startsWithL_self_append _ _)]
  simp only [List.drop_zero, List.drop_left]
  rw [hsep]
  simp only [htake1, hdrop1]
  rw [htrail]
  simp only [htake2, hdrop2, stripTrailNl_concat_nl]

theorem extractPatchesAux_join (ps : List Patch) :
    ∀ fuel, (∀ pc ∈ ps, goodSR pc) → ps.length < fuel →
      extractPatchesAux fuel (joinSR ps) = ps := by
  induction ps with
  | nil =>
    intro fuel _ hf
    cases fuel with
    | zero => omega
    | succ f => rfl
  | cons pc ps' ih =>
    intro fuel hgood hf
    cases fuel with
    | zero => omega
    | succ f =>
      have hj : joinSR (pc :: ps') = mkSRBlock pc ++ joinSR ps' := by simp [joinSR]
      rw [hj, extractPatchesAux_cons pc _ (hgood pc (by simp)) f]
      rw [ih f (fun x hx => hgood x (List.mem_cons_of_mem _ hx)) (by simpa using hf)]

theorem joinSR_length_ge (ps : List Patch) : ps.length ≤ (joinSR ps).length := by
  induction ps with
  | nil => simp [joinSR]
  | cons pc ps' ih =>
    have hj : joinSR (pc :: ps') = mkSRBlock pc ++ joinSR ps' := by simp [joinSR]
    have h1 : 1 ≤ (mkSRBlock pc).length := by
      simp [mkSRBlock]
      omega
    rw [hj, List.length_append, List.length_cons]
    omega

theorem joinBlocksA_length_ge (bs : List (List Char × List Char)) :
    bs.length ≤ (joinBlocksA bs).length := by
  induction bs with
  | nil => simp [joinBlocksA]
  | cons b bs' ih =>
    have hj : joinBlocksA (b :: bs') = mkBlockA b.1 b.2 ++ joinBlocksA bs' := by
      simp [joinBlocksA]
    have h1 : 1 ≤ (mkBlockA b.1 b.2).length := by
      simp [mkBlockA]
      omega
    rw [hj, List.length_append, List.length_cons]
    omega

/-- C6 counterexample: a response with two blocks declaring the same file
`f` parses to a dict with a SINGLE entry holding only the second block's
body — the first block for `f` is overwritten, not applied first. -/
theorem parse_patch_same_file_overwrites :
    parse_patch "<PATCH>\nFile: f\nA\n</PATCH><PATCH>\nFile: f\nB\n</PATCH>".toList =
      some [("f".toList, "File: f\nB".toList)] ∧
    "File: f\nA".toList ∉ [("f".toList, "File: f\nB".toList)].map Prod.snd :=
  ⟨rfl, by decide⟩

/-- C6 (amended): under the context-patch protocol (`_parse_patch`) every
block produces an entry keyed by its declared (stripped) file path, but the
result is a dict: looking a path up returns the body of the LAST block that
declared it (earlier blocks for the same file are overwritten, as the
reversed-association-list characterization shows); under the search/replace
protocol (`_extract_patches`) all blocks are returned as independent patches
in declared order (none dropped), and `apply_file_patch` then applies that
list in order. -/
theorem parse_patch_keyed_last_wins
    (bs : List (List Char × List Char)) (hgA : ∀ b ∈ bs, goodA b)
    (ps : List Patch) (hgB : ∀ pc ∈ ps, goodSR pc) :
    parse_patch (joinBlocksA bs) =
      some (List.foldl
        (fun m pi => dictInsert m (trimWs pi.1) (bodyA pi.1 pi.2)) [] bs) ∧
    (∀ k, lookupA (List.foldl
        (fun m pi => dictInsert m (trimWs pi.1) (bodyA pi.1 pi.2)) [] bs) k =
      lookupA (bs.reverse.map (fun pi => (trimWs pi.1, bodyA pi.1 pi.2))) k) ∧
    extract_patches (joinSR ps) = ps := by
  refine ⟨?_, ?_, ?_⟩
  · rw [parse_patch, findBlocks,
      findBlocks_join bs _ hgA (by have := joinBlocksA_length_ge bs; omega)]
    exact parse_bodies bs [] hgA
  · intro k
    have h := lookupA_foldl_dictInsert
      (bs.map (fun pi => (trimWs pi.1, bodyA pi.1 pi.2))) [] k
    simp only [List.foldl_map] at h
    rw [← List.map_reverse] at h
    rw [h]
    cases lookupA (bs.reverse.map (fun pi => (trimWs pi.1, bodyA pi.1 pi.2))) k with
    | some v => rfl
    | none => rfl
  · rw [extract_patches,
      extractPatchesAux_join ps _ hgB (by have := joinSR_length_ge ps; omega)]

/-- Witness for C6 (amended): three context blocks (two for `f`, one for `g`)
produce a two-entry dict in which `f` maps to the last `f` block's body; two
search/replace blocks yield both patches in order. -/
theorem parse_patch_keyed_last_wins_witness :
    parse_patch (joinBlocksA [("f".toList, "A".toList), ("f".toList, "B".toList),
        ("g".toList, "C".toList)]) =
      some [("f".toList, "File: f\nB".toList), ("g".toList, "File: g\nC".toList)] ∧
    lookupA [("f".toList, "File: f\nB".toList), ("g".toList, "File: g\nC".toList)]
      "f".toList = some "File: f\nB".toList ∧
    extract_patches (joinSR [⟨"Z".toList, "W".toList⟩, ⟨"Z".toList, "V".toList⟩]) =
      [⟨"Z".toList, "W".toList⟩, ⟨"Z".toList, "V".toList⟩] := by
  have h := parse_patch_keyed_last_wins
    [("f".toList, "A".toList), ("f".toList, "B".toList), ("g".toList, "C".toList)]
    (by intro b hb; fin_cases hb <;> exact ⟨by decide, by decide⟩)
    [⟨"Z".toList, "W".toList⟩, ⟨"Z".toList, "V".toList⟩]
    (by intro pc hpc; fin_cases hpc <;> exact ⟨by decide, by decide⟩)
  refine ⟨h.1.trans (by rfl), ?_, h.2.2⟩
  have h2 := h.2.1 "f".toList
  rw [show (List.foldl
      (fun m pi => dictInsert m (trimWs pi.1) (bodyA pi.1 pi.2)) []
      [("f".toList, "A".toList), ("f".toList, "B".toList), ("g".toList, "C".toList)]) =
    [("f".toList, "File: f\nB".toList), ("g".toList, "File: g\nC".toList)] from rfl] at h2
  rw [h2]
  rfl

end Jarvis
